import Mathlib

/-!
Verification of the tone-synthesis core of Audio-Frequency-Tools
(src/tools/frequency-generator.py), as a shallow embedding in Lean 4.

Modelling conventions:
- Python floats are modelled by the rationals; the trigonometric map
  `x ↦ sin(2·π·x)` is an abstract parameter `sin2pi : ℚ → ℚ` of every
  definition that needs it, since the verified claims concern the structure
  of the computation (which argument the sine is applied to, how the
  channels are averaged, how blocks are scheduled), never analytic values
  of the sine function.
- Division by the frequency count (`/ len(frequencies)` in the source) is
  numpy array division: dividing by a zero count raises no exception — it
  emits a RuntimeWarning and yields NaN elements.  NaN is not a rational
  number, so a NaN-valued sample is modelled as `Option.none`.  The
  element-level views `generate_block_mono_elems` and
  `generate_block_binaural_elems` keep each such element in place (the
  block always has `block_len` elements, as numpy's result array does);
  the block-level `generate_block_mono` and `generate_block_binaural`
  return `some` exactly when every sample of the block has a real value.
  The division is element-wise, exactly as numpy applies
  `signal / len(frequencies)` to each element of the block: a block with
  no elements performs no division.
- The audio callbacks of `play_continuous` and `play_finite` are embedded
  as step functions from the sample clock `t0` and the requested frame
  count to the written buffer and the new clock; a raised
  `sd.CallbackStop` is represented by the `stopped` flag with an empty
  buffer.  The device loop is a fold of the step over the list of
  requested frame counts.
-/

set_option autoImplicit false

namespace FreqGen

/-- Map a partial element computation over a list, collapsing to `none`
when any element has no value (the `Option` analogue of `List.map`). -/
def mapOpt {α β : Type} (f : α → Option β) : List α → Option (List β)
  | [] => some []
  | x :: xs =>
    match f x, mapOpt f xs with
    | some y, some ys => some (y :: ys)
    | _, _ => none

/-- Element-wise division of a sample by the frequency count.  On a zero
count numpy raises nothing: `signal / len(frequencies)` emits a
RuntimeWarning and the element is NaN, which has no rational value and is
modelled as `none`. -/
def divByLen (x : ℚ) (n : ℕ) : Option ℚ :=
  if n = 0 then none else some (x / n)

/-- `t = (np.arange(block_size) + t0) / sampling_rate` evaluated at index
`i` (frequency-generator.py line 12). -/
def sampleTime (rate : ℚ) (t0 i : ℕ) : ℚ :=
  ((i : ℚ) + (t0 : ℚ)) / rate

/-- The un-averaged mono sample at index `i`:
`np.sin(2*np.pi*np.outer(t, frequencies))` summed along the frequency axis
(frequency-generator.py lines 16-17). -/
def monoSum (sin2pi : ℚ → ℚ) (frequencies : List ℚ) (rate : ℚ) (t0 i : ℕ) : ℚ :=
  (frequencies.map (fun f => sin2pi (sampleTime rate t0 i * f))).sum

/-- The mono branch of `generate_sinusoidal_block`
(frequency-generator.py lines 14-18): for each index of the block, the
summed sine samples divided by the frequency count. -/
def generate_block_mono (sin2pi : ℚ → ℚ) (frequencies : List ℚ) (rate : ℚ)
    (block_size t0 : ℕ) : Option (List ℚ) :=
  mapOpt (fun i => divByLen (monoSum sin2pi frequencies rate t0 i) frequencies.length)
    (List.range block_size)

/-- The mono branch of `generate_sinusoidal_block`, element by element:
the block numpy returns always has `block_size` elements, and an element
is `none` (NaN, from the unguarded division by a zero frequency count)
exactly when the frequency list is empty. -/
def generate_block_mono_elems (sin2pi : ℚ → ℚ) (frequencies : List ℚ) (rate : ℚ)
    (block_size t0 : ℕ) : List (Option ℚ) :=
  (List.range block_size).map
    (fun i => divByLen (monoSum sin2pi frequencies rate t0 i) frequencies.length)

/-- The binaural beat offset table (frequency-generator.py lines 24-29). -/
def beatDiff (f : ℚ) : ℚ :=
  if f < 40 then 4 else if f < 100 then 6 else 8

/-- The un-averaged left-channel sample at index `i`: the accumulated
`np.sin(2 * np.pi * frequency * t)` over the frequency loop
(frequency-generator.py lines 20-31). -/
def leftSum (sin2pi : ℚ → ℚ) (frequencies : List ℚ) (rate : ℚ) (t0 i : ℕ) : ℚ :=
  (frequencies.map (fun f => sin2pi (f * sampleTime rate t0 i))).sum

/-- The un-averaged right-channel sample at index `i`: the accumulated
`np.sin(2 * np.pi * (frequency + diff) * t)` over the frequency loop
(frequency-generator.py lines 23-32). -/
def rightSum (sin2pi : ℚ → ℚ) (frequencies : List ℚ) (rate : ℚ) (t0 i : ℕ) : ℚ :=
  (frequencies.map (fun f => sin2pi ((f + beatDiff f) * sampleTime rate t0 i))).sum

/-- The binaural branch of `generate_sinusoidal_block`
(frequency-generator.py lines 19-38): both channel sums divided by the
frequency count, the block returned as (left, right) pairs
(`np.vstack((left_channel, right_channel)).T`). -/
def generate_block_binaural (sin2pi : ℚ → ℚ) (frequencies : List ℚ) (rate : ℚ)
    (block_size t0 : ℕ) : Option (List (ℚ × ℚ)) :=
  mapOpt (fun i =>
    match divByLen (leftSum sin2pi frequencies rate t0 i) frequencies.length,
          divByLen (rightSum sin2pi frequencies rate t0 i) frequencies.length with
    | some l, some r => some (l, r)
    | _, _ => none)
    (List.range block_size)

/-- The binaural branch of `generate_sinusoidal_block`, element by
element: the stacked stereo block always has `block_size` frames, and a
channel value is `none` (NaN, from the unguarded `/= len(frequencies)`)
exactly when the frequency list is empty. -/
def generate_block_binaural_elems (sin2pi : ℚ → ℚ) (frequencies : List ℚ) (rate : ℚ)
    (block_size t0 : ℕ) : List (Option ℚ × Option ℚ) :=
  (List.range block_size).map
    (fun i => (divByLen (leftSum sin2pi frequencies rate t0 i) frequencies.length,
               divByLen (rightSum sin2pi frequencies rate t0 i) frequencies.length))

/-- `generate_sinusoidal_block(frequencies, sampling_rate, block_size, t0,
binaural)` (frequency-generator.py lines 10-38), with each frame given as
its list of channel values: mono frames are single-channel (`signal`
reshaped to one column), binaural frames are (left, right) rows of the
stacked stereo signal. -/
def generate_sinusoidal_block (sin2pi : ℚ → ℚ) (frequencies : List ℚ) (rate : ℚ)
    (block_size t0 : ℕ) (binaural : Bool) : Option (List (List ℚ)) :=
  if binaural then
    (generate_block_binaural sin2pi frequencies rate block_size t0).map
      (List.map (fun p => [p.1, p.2]))
  else
    (generate_block_mono sin2pi frequencies rate block_size t0).map
      (List.map (fun x => [x]))

/-! ### Playback session (frequency-generator.py lines 41-83) -/

/-- The result of one invocation of an audio callback: either
`sd.CallbackStop` was raised (`stopped = true`, nothing written, clock
unchanged), or a buffer of frames was written and the clock advanced.
`none` propagates a generated block that has no real-valued samples (see
`divByLen`). -/
structure CallbackOut (α : Type) where
  stopped : Bool
  buffer : List α
  clock : ℕ
deriving DecidableEq, Repr

/-- The callback of `play_continuous` (frequency-generator.py lines
46-52), generic in the block generator `g` (blocklength and start sample
to frames): if the stop event is set, raise `CallbackStop`; otherwise
write a full block of `K` frames generated at the current clock `t0` and
advance the clock by `K`. -/
def continuousCallback {α : Type} (g : ℕ → ℕ → Option (List α))
    (stopFlag : Bool) (t0 K : ℕ) : Option (CallbackOut α) :=
  if stopFlag then some ⟨true, [], t0⟩
  else
    match g K t0 with
    | some block => some ⟨false, block, t0 + K⟩
    | none => none

/-- `remaining = total_samples - t0` (frequency-generator.py line 69). -/
def finiteRemaining (total : ℤ) (t0 : ℕ) : ℤ :=
  total - (t0 : ℤ)

/-- `frames = min(frames, remaining)` (frequency-generator.py line 72),
taken in the branch where `remaining > 0`. -/
def finiteFrames (total : ℤ) (t0 K : ℕ) : ℕ :=
  min K (finiteRemaining total t0).toNat

/-- The number of frames one `play_finite` callback invocation produces:
zero when the stop branch is taken, `min(frames, remaining)` otherwise. -/
def finiteProduced (total : ℤ) (t0 K : ℕ) : ℕ :=
  if finiteRemaining total t0 ≤ 0 then 0 else finiteFrames total t0 K

/-- The callback of `play_finite` (frequency-generator.py lines 67-77),
generic in the block generator `g` and the zero frame used for the silence
pad: if nothing remains, raise `CallbackStop`; otherwise generate
`min(frames, remaining)` frames at the current clock, zero-fill the rest
of the buffer, and advance the clock by the produced count.  The callback
closes over the global `stop_event` but never reads it, so the `stopFlag`
argument is unused in the body. -/
def finiteCallback {α : Type} (g : ℕ → ℕ → Option (List α)) (zero : α)
    (stopFlag : Bool) (total : ℤ) (t0 K : ℕ) : Option (CallbackOut α) :=
  if finiteRemaining total t0 ≤ 0 then some ⟨true, [], t0⟩
  else
    match g (finiteFrames total t0 K) t0 with
    | some block =>
        some ⟨false, block ++ List.replicate (K - finiteFrames total t0 K) zero,
              t0 + finiteFrames total t0 K⟩
    | none => none

/-- `t0 = 0` at session start (frequency-generator.py lines 44 and 65). -/
def initialClock : ℕ := 0

/-- The sample clock after a sequence of `play_finite` callback
invocations with the given requested frame counts. -/
def runFiniteClock (total : ℤ) : List ℕ → ℕ → ℕ
  | [], t0 => t0
  | K :: Ks, t0 => runFiniteClock total Ks (t0 + finiteProduced total t0 K)

/-- The trace (start sample, produced frame count) of a sequence of
block-fill invocations, generic in the per-invocation frame count. -/
def runTrace (produced : ℕ → ℕ → ℕ) : List ℕ → ℕ → List (ℕ × ℕ)
  | [], _ => []
  | K :: Ks, t0 => (t0, produced t0 K) :: runTrace produced Ks (t0 + produced t0 K)

/-- The block trace of a `play_finite` run. -/
def runFiniteTrace (total : ℤ) : List ℕ → ℕ → List (ℕ × ℕ) :=
  runTrace (fun t0 K => finiteProduced total t0 K)

/-- The block trace of a `play_continuous` run on which the stop event is
never observed set: every invocation produces the full `K` frames. -/
def runContinuousTrace : List ℕ → ℕ → List (ℕ × ℕ) :=
  runTrace (fun _ K => K)

/-! ### Stream opening (frequency-generator.py lines 41-58, 61-83) -/

/-- `channels = 2 if binaural else 1` (frequency-generator.py lines 54
and 79). -/
def channelCount (binaural : Bool) : ℕ :=
  if binaural then 2 else 1

/-- `block_size = 1024` (frequency-generator.py lines 43 and 64). -/
def fixedBlockSize : ℕ := 1024

/-- The parameters `sd.OutputStream` is opened with. -/
structure StreamConfig where
  samplerate : ℚ
  channels : ℕ
  blocksize : ℕ
deriving DecidableEq, Repr

/-- The start path of `play_continuous` (frequency-generator.py lines
41-58) up to the opening of the device stream.  The source performs no
validation of its inputs: the body consists only of setting the block
size, defining the callback and opening `sd.OutputStream`, so the result
is unconditionally the opened stream configuration. -/
def play_continuous_start (frequencies : List ℚ) (rate : ℚ) (binaural : Bool) :
    Except String StreamConfig :=
  Except.ok ⟨rate, channelCount binaural, fixedBlockSize⟩

/-- `total_samples = int(duration * sampling_rate)`
(frequency-generator.py line 63), with integer duration and rate. -/
def totalSamples (duration rate : ℤ) : ℤ :=
  duration * rate

/-- The start path of `play_finite` (frequency-generator.py lines 61-83)
up to the opening of the device stream.  As with `play_continuous`, the
source performs no validation of its inputs before opening the stream. -/
def play_finite_start (frequencies : List ℚ) (duration : ℤ) (rate : ℚ)
    (binaural : Bool) : Except String StreamConfig :=
  Except.ok ⟨rate, channelCount binaural, fixedBlockSize⟩

/-- `convert_to_seconds(hours, minutes)` (frequency-generator.py lines
86-87). -/
def convert_to_seconds (hours minutes : ℤ) : ℤ :=
  hours * 3600 + minutes * 60

/-! ### Input parsing (frequency-generator.py lines 90-109) -/

/-- Python's `str.lower()`, character by character. -/
def lowerStr (s : String) : String :=
  ⟨s.data.map Char.toLower⟩

/-- The flag-handling part of `parse_input` (frequency-generator.py lines
90-107), on the whitespace-split token list `parts`.  Indexing `parts[-1]`
on an empty token list raises, modelled as `none`; otherwise the result is
the (binaural, continuous) flag pair.  The frequency-string parsing of
lines 108-109 is independent of the flags and is not modelled. -/
def parse_input_flags (parts : List String) : Option (Bool × Bool) :=
  match parts.getLast? with
  | none => none
  | some last =>
    if lowerStr last = "b" then some (true, false)
    else if lowerStr last = "c" then some (false, true)
    else if lowerStr last = "b" ∨ lowerStr last = "c" then
      some (parts.contains "b", parts.contains "c")
    else some (false, false)

/-! ### Helper lemmas -/

theorem mapOpt_eq_some {α β : Type} (f : α → Option β) (h : α → β) :
    ∀ xs : List α, (∀ a ∈ xs, f a = some (h a)) → mapOpt f xs = some (xs.map h)
  | [], _ => rfl
  | x :: xs, hx => by
    have hx0 : f x = some (h x) := hx x (List.mem_cons_self x xs)
    have ih := mapOpt_eq_some f h xs (fun a ha => hx a (List.mem_cons_of_mem x ha))
    simp [mapOpt, hx0, ih]

theorem mapOpt_eq_none {α β : Type} (f : α → Option β) {a : α} :
    ∀ xs : List α, a ∈ xs → f a = none → mapOpt f xs = none
  | x :: xs, ha, hfa => by
    rcases List.mem_cons.mp ha with h | h
    · subst h; simp [mapOpt, hfa]
    · have ih := mapOpt_eq_none f xs h hfa
      unfold mapOpt
      rw [ih]
      cases f x <;> rfl

/-- On a non-empty frequency list the mono generator always succeeds, and
each sample is the summed sines divided by the count. -/
theorem generate_block_mono_eq (sin2pi : ℚ → ℚ) (frequencies : List ℚ) (rate : ℚ)
    (block_size t0 : ℕ) (hne : frequencies ≠ []) :
    generate_block_mono sin2pi frequencies rate block_size t0 =
      some ((List.range block_size).map
        (fun i => monoSum sin2pi frequencies rate t0 i / (frequencies.length : ℚ))) := by
  apply mapOpt_eq_some
  intro i _
  have hn : frequencies.length ≠ 0 := fun h => hne (List.length_eq_zero.mp h)
  simp [divByLen, hn]

/-- On a non-empty frequency list the binaural generator always succeeds,
each frame being the pair of averaged channel sums. -/
theorem generate_block_binaural_eq (sin2pi : ℚ → ℚ) (frequencies : List ℚ) (rate : ℚ)
    (block_size t0 : ℕ) (hne : frequencies ≠ []) :
    generate_block_binaural sin2pi frequencies rate block_size t0 =
      some ((List.range block_size).map
        (fun i => (leftSum sin2pi frequencies rate t0 i / (frequencies.length : ℚ),
                   rightSum sin2pi frequencies rate t0 i / (frequencies.length : ℚ)))) := by
  apply mapOpt_eq_some
  intro i _
  have hn : frequencies.length ≠ 0 := fun h => hne (List.length_eq_zero.mp h)
  simp [divByLen, hn]

/-- The source's mono sample sum rewritten to the spec's argument order
`f · ((start + i) / rate)`. -/
theorem monoSum_eq_spec (sin2pi : ℚ → ℚ) (frequencies : List ℚ) (rate : ℚ) (t0 i : ℕ) :
    monoSum sin2pi frequencies rate t0 i =
      (frequencies.map (fun f => sin2pi (f * (((t0 : ℚ) + (i : ℚ)) / rate)))).sum := by
  unfold monoSum
  congr 1
  apply List.map_congr_left
  intro f _
  congr 1
  unfold sampleTime
  ring

/-- The binaural left-channel sum is the mono sum (same sine arguments up
to commutativity of multiplication). -/
theorem leftSum_eq_monoSum (sin2pi : ℚ → ℚ) (frequencies : List ℚ) (rate : ℚ) (t0 i : ℕ) :
    leftSum sin2pi frequencies rate t0 i = monoSum sin2pi frequencies rate t0 i := by
  unfold leftSum monoSum
  congr 1
  apply List.map_congr_left
  intro f _
  congr 1
  ring

/-! ### Claims about the waveform generator -/

/-- C1: for every non-empty list of positive frequencies, sample rate > 0,
block length and start sample, the mono output of the generator is a flat
sequence of exactly `block_len` single-channel values, and the sample at
each index `i` equals the average over the frequencies `f` of
`sin(2π · f · (start_sample + i) / sample_rate)`. -/
theorem mono_output_is_average (sin2pi : ℚ → ℚ) (frequencies : List ℚ) (rate : ℚ)
    (block_len start_sample : ℕ) (hne : frequencies ≠ [])
    (hpos : ∀ f ∈ frequencies, 0 < f) (hrate : 0 < rate) :
    (generate_block_mono sin2pi frequencies rate block_len start_sample).map List.length
        = some block_len ∧
    ∀ i : ℕ, i < block_len →
      (generate_block_mono sin2pi frequencies rate block_len start_sample).bind
          (fun l => l[i]?) =
        some ((frequencies.map
            (fun f => sin2pi (f * (((start_sample : ℚ) + (i : ℚ)) / rate)))).sum
          / (frequencies.length : ℚ)) := by
  rw [generate_block_mono_eq sin2pi frequencies rate block_len start_sample hne]
  constructor
  · simp
  · intro i hi
    show ((List.range block_len).map _)[i]? = _
    rw [List.getElem?_map, List.getElem?_range hi]
    rw [Option.map_some']
    rw [monoSum_eq_spec]

/-- Witness for C1 at `frequencies = [440]`, `rate = 44100`,
`block_len = 4`, `start_sample = 0`, sample index 1. -/
theorem mono_output_is_average_witness :
    ([(440 : ℚ)] ≠ []) ∧
    (generate_block_mono id [(440 : ℚ)] 44100 4 0).bind (fun l => l[1]?) =
      some ((([(440 : ℚ)]).map
          (fun f => id (f * (((0 : ℚ) + ((1 : ℕ) : ℚ)) / 44100)))).sum
        / (([(440 : ℚ)]).length : ℚ)) :=
  ⟨by simp,
   (mono_output_is_average id [(440 : ℚ)] 44100 4 0 (by simp)
      (by intro f hf; rw [List.mem_singleton] at hf; rw [hf]; norm_num)
      (by norm_num)).2 1 (by norm_num)⟩

/-- C2: in binaural mode each frequency `f` contributes `sin(2π f t)` to
the left channel and `sin(2π (f + d) t)` to the right channel, with
`d = 4` for `f < 40`, `d = 6` for `40 ≤ f < 100` and `d = 8` for
`f ≥ 100`; both channel sums are divided by the frequency count, and the
result is `block_len` (left, right) pairs, i.e. exactly two channels per
frame. -/
theorem binaural_output_correct (sin2pi : ℚ → ℚ) (frequencies : List ℚ) (rate : ℚ)
    (block_len start_sample : ℕ) (hne : frequencies ≠ [])
    (hpos : ∀ f ∈ frequencies, 0 < f) :
    (∀ f : ℚ, (f < 40 → beatDiff f = 4) ∧ (40 ≤ f → f < 100 → beatDiff f = 6) ∧
      (100 ≤ f → beatDiff f = 8)) ∧
    (generate_block_binaural sin2pi frequencies rate block_len start_sample).map
        List.length = some block_len ∧
    (generate_sinusoidal_block sin2pi frequencies rate block_len start_sample true).map
        (List.map List.length) = some (List.replicate block_len 2) ∧
    ∀ i : ℕ, i < block_len →
      (generate_block_binaural sin2pi frequencies rate block_len start_sample).bind
          (fun l => l[i]?) =
        some (((frequencies.map (fun f =>
                sin2pi (f * (((start_sample : ℚ) + (i : ℚ)) / rate)))).sum
              / (frequencies.length : ℚ),
              (frequencies.map (fun f =>
                sin2pi ((f + beatDiff f) * (((start_sample : ℚ) + (i : ℚ)) / rate)))).sum
              / (frequencies.length : ℚ))) := by
  refine ⟨?_, ?_, ?_, ?_⟩
  · intro f
    unfold beatDiff
    refine ⟨fun h => if_pos h, fun h1 h2 => ?_, fun h => ?_⟩
    · rw [if_neg (not_lt.mpr h1), if_pos h2]
    · rw [if_neg (not_lt.mpr (by linarith)), if_neg (not_lt.mpr (by linarith))]
  · rw [generate_block_binaural_eq sin2pi frequencies rate block_len start_sample hne]
    simp
  · unfold generate_sinusoidal_block
    rw [if_pos rfl,
      generate_block_binaural_eq sin2pi frequencies rate block_len start_sample hne]
    simp [List.map_map, Function.comp, List.eq_replicate_iff]
  · intro i hi
    rw [generate_block_binaural_eq sin2pi frequencies rate block_len start_sample hne]
    show ((List.range block_len).map _)[i]? = _
    rw [List.getElem?_map, List.getElem?_range hi, Option.map_some']
    rw [leftSum_eq_monoSum, monoSum_eq_spec]
    have hr : rightSum sin2pi frequencies rate start_sample i =
        (frequencies.map (fun f =>
          sin2pi ((f + beatDiff f) * (((start_sample : ℚ) + (i : ℚ)) / rate)))).sum := by
      unfold rightSum
      congr 1
      apply List.map_congr_left
      intro f _
      congr 1
      unfold sampleTime
      ring
    rw [hr]

/-- Witness for C2 at `frequencies = [30]`, `rate = 44100`,
`block_len = 1`, sample index 0 (beat offset 4 Hz). -/
theorem binaural_output_correct_witness :
    ((30 : ℚ) < 40 → beatDiff 30 = 4) ∧
    (generate_block_binaural id [(30 : ℚ)] 44100 1 0).bind (fun l => l[0]?) =
      some (((([(30 : ℚ)]).map
              (fun f => id (f * (((0 : ℚ) + ((0 : ℕ) : ℚ)) / 44100)))).sum
            / (([(30 : ℚ)]).length : ℚ),
            (([(30 : ℚ)]).map
              (fun f => id ((f + beatDiff f) * (((0 : ℚ) + ((0 : ℕ) : ℚ)) / 44100)))).sum
            / (([(30 : ℚ)]).length : ℚ))) :=
  ⟨((binaural_output_correct id [(30 : ℚ)] 44100 1 0 (by simp)
      (by intro f hf; rw [List.mem_singleton] at hf; rw [hf]; norm_num)).1 30).1,
   (binaural_output_correct id [(30 : ℚ)] 44100 1 0 (by simp)
      (by intro f hf; rw [List.mem_singleton] at hf; rw [hf]; norm_num)).2.2.2 0
      (by norm_num)⟩

/-- C9: the left channel of the binaural output coincides, frame for
frame, with the mono output for the same frequencies, sample rate, block
length and start sample. -/
theorem binaural_left_refines_mono (sin2pi : ℚ → ℚ) (frequencies : List ℚ) (rate : ℚ)
    (block_len start_sample : ℕ) (hne : frequencies ≠ [])
    (hpos : ∀ f ∈ frequencies, 0 < f) (hrate : 0 < rate) :
    (generate_block_binaural sin2pi frequencies rate block_len start_sample).map
        (List.map Prod.fst) =
      generate_block_mono sin2pi frequencies rate block_len start_sample := by
  rw [generate_block_binaural_eq sin2pi frequencies rate block_len start_sample hne,
    generate_block_mono_eq sin2pi frequencies rate block_len start_sample hne]
  rw [Option.map_some']
  rw [List.map_map]
  congr 1
  apply List.map_congr_left
  intro i _
  show leftSum sin2pi frequencies rate start_sample i / (frequencies.length : ℚ) = _
  rw [leftSum_eq_monoSum]

/-- Witness for C9 at `frequencies = [440]`, `rate = 44100`,
`block_len = 3`, `start_sample = 5`. -/
theorem binaural_left_refines_mono_witness :
    (generate_block_binaural id [(440 : ℚ)] 44100 3 5).map (List.map Prod.fst) =
      generate_block_mono id [(440 : ℚ)] 44100 3 5 :=
  binaural_left_refines_mono id [(440 : ℚ)] 44100 3 5 (by simp)
    (by intro f hf; rw [List.mem_singleton] at hf; rw [hf]; norm_num) (by norm_num)

/-- The absolute time of the last sample of a block started at 0 equals
the absolute time of the first sample of a block started there. -/
theorem sampleTime_shift (rate : ℚ) (k : ℕ) :
    sampleTime rate 0 k = sampleTime rate k 0 := by
  unfold sampleTime
  ring

theorem map_range_getLast? {β : Type} (h : ℕ → β) (N : ℕ) (hN : 1 ≤ N) :
    ((List.range N).map h).getLast? = some (h (N - 1)) := by
  rw [List.getLast?_eq_getElem?]
  simp only [List.length_map, List.length_range]
  rw [List.getElem?_map, List.getElem?_range (by omega)]
  rfl

theorem map_range_one_head {β : Type} (h : ℕ → β) :
    ((List.range 1).map h).head? = some (h 0) := rfl

/-- C6: phase continuity — for every frequency list and block length
`N ≥ 1`, the last sample of a single block of length `N` starting at
sample 0 equals the sample of a block generated with `start_sample = N-1`
and `block_len = 1`, in both modes; and the generator is a pure function
of its arguments, so identical inputs yield identical output. -/
theorem phase_continuity (sin2pi : ℚ → ℚ) (frequencies : List ℚ) (rate : ℚ)
    (N : ℕ) (hN : 1 ≤ N) :
    ((generate_block_mono sin2pi frequencies rate N 0).bind (fun l => l.getLast?)
      = (generate_block_mono sin2pi frequencies rate 1 (N - 1)).bind (fun l => l.head?)) ∧
    ((generate_block_binaural sin2pi frequencies rate N 0).bind (fun l => l.getLast?)
      = (generate_block_binaural sin2pi frequencies rate 1 (N - 1)).bind (fun l => l.head?)) ∧
    (∀ (bs t0 : ℕ) (b : Bool),
      generate_sinusoidal_block sin2pi frequencies rate bs t0 b
        = generate_sinusoidal_block sin2pi frequencies rate bs t0 b) := by
  rcases eq_or_ne frequencies [] with hemp | hne
  · subst hemp
    have hmono : ∀ (bs t0 : ℕ), 1 ≤ bs → generate_block_mono sin2pi [] rate bs t0 = none := by
      intro bs t0 hbs
      exact mapOpt_eq_none _ _ (List.mem_range.mpr hbs) (by simp [divByLen])
    have hbin : ∀ (bs t0 : ℕ), 1 ≤ bs →
        generate_block_binaural sin2pi [] rate bs t0 = none := by
      intro bs t0 hbs
      exact mapOpt_eq_none _ _ (List.mem_range.mpr hbs) (by simp [divByLen])
    refine ⟨?_, ?_, fun _ _ _ => rfl⟩
    · rw [hmono N 0 hN, hmono 1 (N - 1) le_rfl]
      rfl
    · rw [hbin N 0 hN, hbin 1 (N - 1) le_rfl]
      rfl
  · refine ⟨?_, ?_, fun _ _ _ => rfl⟩
    · rw [generate_block_mono_eq sin2pi frequencies rate N 0 hne,
        generate_block_mono_eq sin2pi frequencies rate 1 (N - 1) hne]
      simp only [Option.some_bind]
      rw [map_range_getLast? _ N hN, map_range_one_head]
      congr 1
      unfold monoSum
      rw [sampleTime_shift]
    · rw [generate_block_binaural_eq sin2pi frequencies rate N 0 hne,
        generate_block_binaural_eq sin2pi frequencies rate 1 (N - 1) hne]
      simp only [Option.some_bind]
      rw [map_range_getLast? _ N hN, map_range_one_head]
      congr 1
      simp only [Prod.mk.injEq]
      constructor
      · unfold leftSum
        rw [sampleTime_shift]
      · unfold rightSum
        rw [sampleTime_shift]

/-- Witness for C6 at `frequencies = [1]`, `rate = 1`, `N = 4`. -/
theorem phase_continuity_witness :
    (1 : ℕ) ≤ 4 ∧
    (generate_block_mono id [(1 : ℚ)] 1 4 0).bind (fun l => l.getLast?)
      = (generate_block_mono id [(1 : ℚ)] 1 1 (4 - 1)).bind (fun l => l.head?) :=
  ⟨by norm_num, (phase_continuity id [(1 : ℚ)] 1 4 (by norm_num)).1⟩

/-- C8 counterexample: with an empty frequency list the generator does
not fail with a division-by-zero error: numpy's array division by zero
only emits a RuntimeWarning, and the generator returns a full-length
block — here two frames in each mode, every sample the NaN value of the
`0 / 0` division — so it does return a result. -/
theorem empty_frequencies_nan_cx :
    generate_block_mono_elems id [] 1 2 0 = [none, none] ∧
    generate_block_binaural_elems id [] 1 2 0 = [(none, none), (none, none)] := by
  decide

/-- C8 (amended): the generator divides by the frequency count without a
guard, but for an empty frequency list (either mode, any block length) it
neither fails nor surfaces a rejection: the element-wise division by zero
emits only a RuntimeWarning, and the generator returns a block of exactly
`block_len` frames every sample of which is NaN — carrying no real sample
value; with a non-empty frequency list every sample is a real value, so
NaN samples are unreachable exactly under the precondition that the
frequency list is non-empty. -/
theorem empty_frequencies_nan_block (sin2pi : ℚ → ℚ) (rate : ℚ) (block_len t0 : ℕ) :
    (generate_block_mono_elems sin2pi [] rate block_len t0).length = block_len ∧
    (∀ x ∈ generate_block_mono_elems sin2pi [] rate block_len t0, x = none) ∧
    (generate_block_binaural_elems sin2pi [] rate block_len t0).length = block_len ∧
    (∀ p ∈ generate_block_binaural_elems sin2pi [] rate block_len t0,
      p = (none, none)) ∧
    (∀ frequencies : List ℚ, frequencies ≠ [] →
      (∀ x ∈ generate_block_mono_elems sin2pi frequencies rate block_len t0,
        x.isSome = true) ∧
      (∀ p ∈ generate_block_binaural_elems sin2pi frequencies rate block_len t0,
        p.1.isSome = true ∧ p.2.isSome = true)) := by
  refine ⟨by simp [generate_block_mono_elems], ?_, by simp [generate_block_binaural_elems], ?_, ?_⟩
  · intro x hx
    rcases List.mem_map.mp hx with ⟨i, _, hrfl⟩
    rw [← hrfl]
    simp [divByLen]
  · intro p hp
    rcases List.mem_map.mp hp with ⟨i, _, hrfl⟩
    rw [← hrfl]
    simp [divByLen]
  · intro freqs hne
    have hn : freqs.length ≠ 0 := fun h => hne (List.length_eq_zero.mp h)
    constructor
    · intro x hx
      rcases List.mem_map.mp hx with ⟨i, _, hrfl⟩
      rw [← hrfl]
      simp [divByLen, hn]
    · intro p hp
      rcases List.mem_map.mp hp with ⟨i, _, hrfl⟩
      rw [← hrfl]
      simp [divByLen, hn]

/-- Witness for C8 (amended): with the single frequency 1 every sample of
a two-frame mono block carries a real value. -/
theorem empty_frequencies_nan_block_witness :
    ([(1 : ℚ)] ≠ []) ∧
    (∀ x ∈ generate_block_mono_elems id [(1 : ℚ)] 1 2 0, x.isSome = true) :=
  ⟨by simp,
   ((empty_frequencies_nan_block id 1 2 0).2.2.2.2 [(1 : ℚ)] (by simp)).1⟩

/-! ### Session lemmas -/

/-- The per-invocation produced frame count of `play_finite`, restated
over natural-number totals. -/
theorem finiteProduced_eq (T t0 K : ℕ) :
    finiteProduced (T : ℤ) t0 K = min K (T - t0) := by
  unfold finiteProduced finiteFrames finiteRemaining
  split <;> omega

theorem runFiniteClock_le (T : ℕ) : ∀ (Ks : List ℕ) (t0 : ℕ), t0 ≤ T →
    runFiniteClock (T : ℤ) Ks t0 ≤ T
  | [], _, h => h
  | K :: Ks, t0, h => by
    unfold runFiniteClock
    apply runFiniteClock_le T Ks
    have hp := finiteProduced_eq T t0 K
    omega

theorem runFiniteClock_complete (T : ℕ) : ∀ (Ks : List ℕ) (t0 : ℕ),
    (∀ K ∈ Ks, 1 ≤ K) → t0 ≤ T → T - t0 ≤ Ks.length →
    runFiniteClock (T : ℤ) Ks t0 = T
  | [], t0, _, h1, h2 => by
    unfold runFiniteClock
    simp at h2
    omega
  | K :: Ks, t0, hK, h1, h2 => by
    unfold runFiniteClock
    have hp := finiteProduced_eq T t0 K
    have hK1 : 1 ≤ K := hK K (List.mem_cons_self K Ks)
    have hlen : (K :: Ks).length = Ks.length + 1 := rfl
    apply runFiniteClock_complete T Ks
    · exact fun K' hK' => hK K' (List.mem_cons_of_mem K hK')
    · omega
    · omega

/-- With a non-positive total the finite callback produces nothing and the
clock never moves. -/
theorem runFiniteClock_nonpos (total : ℤ) (h : total ≤ 0) :
    ∀ (Ks : List ℕ) (t0 : ℕ), runFiniteClock total Ks t0 = t0
  | [], _ => rfl
  | K :: Ks, t0 => by
    unfold runFiniteClock
    have hp : finiteProduced total t0 K = 0 := by
      unfold finiteProduced finiteRemaining
      rw [if_pos (by omega)]
    rw [hp, Nat.add_zero]
    exact runFiniteClock_nonpos total h Ks t0

/-- Every entry of a block trace starts at the base clock plus the sum of
the frame counts of all earlier entries. -/
theorem runTrace_start (produced : ℕ → ℕ → ℕ) :
    ∀ (Ks : List ℕ) (t0 j : ℕ), j < (runTrace produced Ks t0).length →
      ((runTrace produced Ks t0)[j]?).map Prod.fst =
        some (t0 + (((runTrace produced Ks t0).take j).map Prod.snd).sum)
  | [], t0, j, hj => by simp [runTrace] at hj
  | K :: Ks, t0, 0, _ => by simp [runTrace]
  | K :: Ks, t0, j + 1, hj => by
    have hj' : j < (runTrace produced Ks (t0 + produced t0 K)).length := by
      simpa [runTrace] using hj
    have ih := runTrace_start produced Ks (t0 + produced t0 K) j hj'
    unfold runTrace
    rw [List.getElem?_cons_succ, List.take_succ_cons, ih]
    simp only [List.map_cons, List.sum_cons, Option.some.injEq]
    omega

/-! ### Claims about the playback session -/

/-- C3: for a finite plan with `T` total samples, each block-fill
invocation produces `min(K, T - clock)` frames; across any run the clock
never exceeds `T`, and a full run (every request nonzero, enough
invocations for the stop condition to fire) produces exactly `T` frames;
when fewer than `K` frames are produced the remainder of the output buffer
is explicitly zero-filled, in mono sessions (zero samples) and binaural
sessions (zero frames on both channels) alike. -/
theorem finite_run_totals (T : ℕ) (Ks : List ℕ) (hK : ∀ K ∈ Ks, 1 ≤ K) :
    (∀ t0 K : ℕ, finiteProduced (T : ℤ) t0 K = min K (T - t0)) ∧
    runFiniteClock (T : ℤ) Ks initialClock ≤ T ∧
    (T ≤ Ks.length → runFiniteClock (T : ℤ) Ks initialClock = T) ∧
    (∀ (sin2pi : ℚ → ℚ) (frequencies : List ℚ) (rate : ℚ), frequencies ≠ [] →
      ∀ (t0 K : ℕ) (out : CallbackOut ℚ),
        finiteCallback (generate_block_mono sin2pi frequencies rate) (0 : ℚ) false
            (T : ℤ) t0 K = some out →
        out.stopped = false →
        out.buffer.length = K ∧
        out.buffer.drop (finiteProduced (T : ℤ) t0 K) =
          List.replicate (K - finiteProduced (T : ℤ) t0 K) 0) ∧
    (∀ (sin2pi : ℚ → ℚ) (frequencies : List ℚ) (rate : ℚ), frequencies ≠ [] →
      ∀ (t0 K : ℕ) (out : CallbackOut (ℚ × ℚ)),
        finiteCallback (generate_block_binaural sin2pi frequencies rate)
            ((0 : ℚ), (0 : ℚ)) false (T : ℤ) t0 K = some out →
        out.stopped = false →
        out.buffer.length = K ∧
        out.buffer.drop (finiteProduced (T : ℤ) t0 K) =
          List.replicate (K - finiteProduced (T : ℤ) t0 K) ((0 : ℚ), (0 : ℚ))) := by
  refine ⟨fun t0 K => finiteProduced_eq T t0 K,
    runFiniteClock_le T Ks 0 (Nat.zero_le T),
    fun hlen => runFiniteClock_complete T Ks 0 hK (Nat.zero_le T) (by omega), ?_, ?_⟩
  · intro sin2pi freqs rate hne t0 K out hcb hstop
    unfold finiteCallback at hcb
    by_cases hrem : finiteRemaining (T : ℤ) t0 ≤ 0
    · rw [if_pos hrem] at hcb
      injection hcb with h
      subst h
      simp at hstop
    · rw [if_neg hrem,
        generate_block_mono_eq sin2pi freqs rate (finiteFrames (T : ℤ) t0 K) t0 hne] at hcb
      simp only [Option.map_some'] at hcb
      injection hcb with h
      subst h
      have hmin : finiteFrames (T : ℤ) t0 K ≤ K := min_le_left _ _
      have hprod : finiteProduced (T : ℤ) t0 K = finiteFrames (T : ℤ) t0 K :=
        if_neg hrem
      constructor
      · simp only [List.length_append, List.length_map, List.length_range,
          List.length_replicate]
        omega
      · rw [hprod]
        have hL : ((List.range (finiteFrames (T : ℤ) t0 K)).map
            (fun i => monoSum sin2pi freqs rate t0 i / (freqs.length : ℚ))).length =
              finiteFrames (T : ℤ) t0 K := by
          simp
        exact List.drop_left' hL
  · intro sin2pi freqs rate hne t0 K out hcb hstop
    unfold finiteCallback at hcb
    by_cases hrem : finiteRemaining (T : ℤ) t0 ≤ 0
    · rw [if_pos hrem] at hcb
      injection hcb with h
      subst h
      simp at hstop
    · rw [if_neg hrem,
        generate_block_binaural_eq sin2pi freqs rate (finiteFrames (T : ℤ) t0 K) t0 hne]
        at hcb
      simp only [Option.map_some'] at hcb
      injection hcb with h
      subst h
      have hmin : finiteFrames (T : ℤ) t0 K ≤ K := min_le_left _ _
      have hprod : finiteProduced (T : ℤ) t0 K = finiteFrames (T : ℤ) t0 K :=
        if_neg hrem
      constructor
      · simp only [List.length_append, List.length_map, List.length_range,
          List.length_replicate]
        omega
      · rw [hprod]
        have hL : ((List.range (finiteFrames (T : ℤ) t0 K)).map
            (fun i => (leftSum sin2pi freqs rate t0 i / (freqs.length : ℚ),
                       rightSum sin2pi freqs rate t0 i / (freqs.length : ℚ)))).length =
              finiteFrames (T : ℤ) t0 K := by
          simp
        exact List.drop_left' hL

/-- Witness for C3 at `T = 3`, requests `[2, 2, 2]`: the run completes with
exactly 3 frames produced. -/
theorem finite_run_totals_witness :
    (∀ K ∈ [(2 : ℕ), 2, 2], 1 ≤ K) ∧
    runFiniteClock ((3 : ℕ) : ℤ) [2, 2, 2] initialClock = 3 :=
  ⟨by decide, (finite_run_totals 3 [2, 2, 2] (by decide)).2.2.1 (by norm_num)⟩

/-- C7: the sample clock starts at 0; each continuous block-fill advances
it by exactly the `K` frames produced (or leaves it unchanged when the
stream stops), each finite block-fill advances it by exactly the produced
frame count, and a non-stopped finite invocation with `K ≥ 1` produces at
least one frame; consequently in both finite and continuous runs every
block's start sample equals the sum of all prior blocks' produced frame
counts — blocks are delivered in increasing start-sample order with no
gaps. -/
theorem sample_clock_invariants (α : Type) :
    initialClock = 0 ∧
    (∀ (g : ℕ → ℕ → Option (List α)) (flag : Bool) (t0 K : ℕ) (out : CallbackOut α),
        continuousCallback g flag t0 K = some out →
        t0 ≤ out.clock ∧ out.clock = t0 + (if out.stopped then 0 else K)) ∧
    (∀ (g : ℕ → ℕ → Option (List α)) (zero : α) (flag : Bool) (total : ℤ)
        (t0 K : ℕ) (out : CallbackOut α),
        finiteCallback g zero flag total t0 K = some out →
        t0 ≤ out.clock ∧
        out.clock = t0 + (if out.stopped then 0 else finiteProduced total t0 K)) ∧
    (∀ (total : ℤ) (t0 K : ℕ), 1 ≤ K → ¬ finiteRemaining total t0 ≤ 0 →
        1 ≤ finiteProduced total t0 K) ∧
    (∀ (total : ℤ) (Ks : List ℕ) (j : ℕ),
        j < (runFiniteTrace total Ks initialClock).length →
        ((runFiniteTrace total Ks initialClock)[j]?).map Prod.fst =
          some ((((runFiniteTrace total Ks initialClock).take j).map Prod.snd).sum)) ∧
    (∀ (Ks : List ℕ) (j : ℕ),
        j < (runContinuousTrace Ks initialClock).length →
        ((runContinuousTrace Ks initialClock)[j]?).map Prod.fst =
          some ((((runContinuousTrace Ks initialClock).take j).map Prod.snd).sum)) := by
  refine ⟨rfl, ?_, ?_, ?_, ?_, ?_⟩
  · intro g flag t0 K out hcb
    unfold continuousCallback at hcb
    cases flag
    · simp only [Bool.false_eq_true, if_false] at hcb
      cases hg : g K t0 with
      | none => rw [hg] at hcb; exact Option.noConfusion hcb
      | some block =>
        rw [hg] at hcb
        simp only [Option.map_some'] at hcb
        injection hcb with h
        subst h
        simp
    · simp only [if_true] at hcb
      injection hcb with h
      subst h
      simp
  · intro g zero flag total t0 K out hcb
    unfold finiteCallback at hcb
    by_cases hrem : finiteRemaining total t0 ≤ 0
    · rw [if_pos hrem] at hcb
      injection hcb with h
      subst h
      simp
    · rw [if_neg hrem] at hcb
      cases hg : g (finiteFrames total t0 K) t0 with
      | none => rw [hg] at hcb; exact Option.noConfusion hcb
      | some block =>
        rw [hg] at hcb
        simp only [Option.map_some'] at hcb
        injection hcb with h
        subst h
        have hprod : finiteProduced total t0 K = finiteFrames total t0 K :=
          if_neg hrem
        simp [hprod]
  · intro total t0 K hK hrem
    unfold finiteProduced finiteFrames
    rw [if_neg hrem]
    unfold finiteRemaining at hrem ⊢
    omega
  · intro total Ks j hj
    have h := runTrace_start (fun t0 K => finiteProduced total t0 K) Ks initialClock j hj
    simpa [runFiniteTrace, initialClock] using h
  · intro Ks j hj
    have h := runTrace_start (fun _ K => K) Ks initialClock j hj
    simpa [runContinuousTrace, initialClock] using h

/-- Witness for C7: the third block of a finite run with `T = 10` and
requests `[4, 4, 4]` starts at sample 8, the sum of the prior produced
counts. -/
theorem sample_clock_invariants_witness :
    ((runFiniteTrace (10 : ℤ) [4, 4, 4] initialClock)[2]?).map Prod.fst =
      some ((((runFiniteTrace (10 : ℤ) [4, 4, 4] initialClock).take 2).map
        Prod.snd).sum) :=
  (sample_clock_invariants ℚ).2.2.2.2.1 (10 : ℤ) [4, 4, 4] 2 (by decide)

/-- C4 counterexample: the finite session's block-fill does not observe
the cancellation flag: with the flag set, ten samples remaining and four
frames requested, it produces a full four-frame block and advances the
clock instead of stopping with no block. -/
theorem finite_ignores_flag_cx :
    (finiteCallback (generate_block_mono id [(1 : ℚ)] 1) (0 : ℚ) true 10 0 4).map
        (fun out => (out.stopped, out.buffer.length, out.clock)) =
      some (false, 4, 4) := by
  decide

/-- C4 (amended): the continuous session's block-fill observes the
cancellation flag before producing samples — when the flag is set it
produces no block, leaves the clock unchanged and stops the stream, so
after the flag is set at most the one in-flight block's frames are ever
produced; the finite session's block-fill never observes the flag: its
behavior is identical whether or not the flag is set. -/
theorem cancellation_observation (α : Type) :
    (∀ (g : ℕ → ℕ → Option (List α)) (t0 K : ℕ),
        continuousCallback g true t0 K = some ⟨true, [], t0⟩) ∧
    (∀ (g : ℕ → ℕ → Option (List α)) (zero : α) (total : ℤ) (t0 K : ℕ),
        finiteCallback g zero true total t0 K =
          finiteCallback g zero false total t0 K) :=
  ⟨fun _ _ _ => rfl, fun _ _ _ _ _ => rfl⟩

/-- C5 counterexample: with an empty frequency list (and, for the finite
session, a negative duration) the start path opens the device stream and
surfaces no constraint violation, instead of rejecting the input. -/
theorem start_accepts_invalid_cx :
    play_continuous_start [] 44100 false = Except.ok ⟨44100, 1, 1024⟩ ∧
    play_finite_start [] (-5) 44100 true = Except.ok ⟨44100, 2, 1024⟩ :=
  ⟨rfl, rfl⟩

/-- C5 (amended): the source performs no input validation: for every
input, valid or not — including an empty frequency list, non-positive
frequencies or sample rates and negative durations — `play_continuous`
and `play_finite` open the device stream (1 channel for mono, 2 for
binaural, block size 1024) and surface no description of any violated
constraint; a non-positive duration yields a finite session whose
callback never produces a frame. -/
theorem start_performs_no_validation (frequencies : List ℚ) (rate : ℚ)
    (duration : ℤ) (binaural : Bool) :
    play_continuous_start frequencies rate binaural
        = Except.ok ⟨rate, channelCount binaural, fixedBlockSize⟩ ∧
    play_finite_start frequencies duration rate binaural
        = Except.ok ⟨rate, channelCount binaural, fixedBlockSize⟩ ∧
    (duration ≤ 0 → ∀ Ks : List ℕ,
        runFiniteClock (totalSamples duration 44100) Ks initialClock = initialClock) := by
  refine ⟨rfl, rfl, ?_⟩
  intro hdur Ks
  apply runFiniteClock_nonpos
  unfold totalSamples
  omega

/-- Witness for C5 (amended): a duration of −5 seconds produces zero
frames across any run. -/
theorem start_performs_no_validation_witness :
    ((-5 : ℤ) ≤ 0) ∧
    runFiniteClock (totalSamples (-5) 44100) [1024, 1024] initialClock = initialClock :=
  ⟨by norm_num,
   (start_performs_no_validation [] 44100 (-5) false).2.2 (by norm_num) [1024, 1024]⟩

/-! ### Claim about the input parser -/

/-- Unfolding of `parse_input_flags` on a token list with a last token. -/
theorem parse_input_flags_of_getLast (parts : List String) (last : String)
    (hl : parts.getLast? = some last) :
    parse_input_flags parts =
      (if lowerStr last = "b" then some (true, false)
       else if lowerStr last = "c" then some (false, true)
       else if lowerStr last = "b" ∨ lowerStr last = "c" then
         some (parts.contains "b", parts.contains "c")
       else some (false, false)) := by
  unfold parse_input_flags
  rw [hl]

/-- C10: for every token list accepted by `parse_input`, the returned
flags are never both set: only the last whitespace-separated token selects
a flag, and the two flag branches are mutually exclusive — the
combined-flags branch is syntactically unreachable, since its guard is the
disjunction of the two preceding guards — so a single input line cannot
select continuous binaural playback.  Moreover the flag result depends
only on the last token. -/
theorem parse_input_flags_exclusive (parts : List String) :
    (∀ b c : Bool, parse_input_flags parts = some (b, c) → ¬(b = true ∧ c = true)) ∧
    (∀ last : String, parts.getLast? = some last →
        parse_input_flags parts = parse_input_flags [last]) := by
  constructor
  · intro b c h hbc
    obtain ⟨hb, hc⟩ := hbc
    subst hb
    subst hc
    cases hl : parts.getLast? with
    | none =>
      unfold parse_input_flags at h
      rw [hl] at h
      exact Option.noConfusion h
    | some last =>
      rw [parse_input_flags_of_getLast parts last hl] at h
      by_cases h1 : lowerStr last = "b"
      · rw [if_pos h1] at h
        simp at h
      · rw [if_neg h1] at h
        by_cases h2 : lowerStr last = "c"
        · rw [if_pos h2] at h
          simp at h
        · rw [if_neg h2, if_neg (by tauto)] at h
          simp at h
  · intro last hl
    rw [parse_input_flags_of_getLast parts last hl,
      parse_input_flags_of_getLast [last] last rfl]
    by_cases hb : lowerStr last = "b"
    · rw [if_pos hb, if_pos hb]
    · rw [if_neg hb, if_neg hb]
      by_cases hc : lowerStr last = "c"
      · rw [if_pos hc, if_pos hc]
      · rw [if_neg hc, if_neg hc, if_neg (by tauto), if_neg (by tauto)]

/-- Witness for C10 on the input tokens `["440", "b"]`. -/
theorem parse_input_flags_exclusive_witness :
    parse_input_flags ["440", "b"] = some (true, false) ∧
    ¬((true : Bool) = true ∧ (false : Bool) = true) :=
  ⟨by decide,
   (parse_input_flags_exclusive ["440", "b"]).1 true false (by decide)⟩

end FreqGen
